import Mathlib

/-!
Verification of `hatch_nodejs_version/metadata_source.py` (the `NodeJSMetadataSource`
metadata hook).  The Python module is shallowly embedded here:

* Python `dict[str, str]` values become association lists `List (String × String)`
  (`dictGet` is `d[k]` returning `Option`, first binding wins, mirroring unique-key
  Python dicts).
* A raised Python exception becomes `Except PyErr`; `PyErr.keyError k` is a
  `KeyError` for key `k` and `PyErr.valueError msg` a `ValueError` with message `msg`.
* The regular expressions `AUTHOR_PATTERN` and `REPOSITORY_PATTERN` are embedded as
  explicit backtracking matchers (`authorMatch`, `repoMatch`) that reproduce CPython
  `re.match` semantics for these two concrete patterns, including the order in which
  greedy (`?`, `*`) and lazy (`+?`, `*?`) quantifiers explore alternatives, the fact
  that `.` does not match a newline, and that `$` matches at the end of the input or
  just before a trailing newline.
* `urllib.parse.urljoin` and the helpers it uses (`urlsplit`, `urlparse`,
  `urlunsplit`, `urlunparse`) are transcribed from CPython 3.11 `urllib/parse.py`
  for `str` arguments with `allow_fragments=True`; see `urlsplit` below for the two
  deliberately unmodelled checks, which concern only bracketed or non-ASCII hosts.
* `update` is modelled on an already-loaded manifest (`Package`): the file-system
  part of `load_package_data` is out of scope, its parsed JSON result is the
  `Package` argument.
-/

/-- A raised Python exception: `KeyError(key)` or `ValueError(message)`. -/
inductive PyErr where
  | keyError : String → PyErr
  | valueError : String → PyErr
deriving DecidableEq, Repr

/-- Lookup in an association-list model of a Python `dict` (`d[k]`,
`d.get(k)`); the first binding for a key wins. -/
def dictGet {α : Type} : List (String × α) → String → Option α
  | [], _ => none
  | (k, v) :: rest, key => if k = key then some v else dictGet rest key

/-- Result dict of `_parse_person`: values are `Option String` because Python may
store `None` (the unmatched group 1) under `"name"`. `none` as a value is Python
`None`; a key that is absent from the list is absent from the dict. -/
abbrev PRec := List (String × Option String)

/-! ### `AUTHOR_PATTERN = r"^([^<(]+?)?[ \t]*(?:<([^>(]+?)>)?[ \t]*(?:\(([^)]+?)\)|$)"`

The matcher works on `List Char` and returns the three capture groups
(display name, email, url), each `none` when the group did not participate.
Backtracking order is exactly CPython `re`:
group 1 (`([^<(]+?)?`) prefers to be present and as short as possible, then absent;
`[ \t]*` prefers to consume as much as possible; `(?:<...>)?` prefers present;
the final alternation tries `\(([^)]+?)\)` before `$`. -/

/-- Character class `[ \t]` of `AUTHOR_PATTERN`. -/
def wsClass (c : Char) : Bool := c = ' ' || c = '\t'

/-- Character class `[^<(]` (group 1 of `AUTHOR_PATTERN`). -/
def nameClass (c : Char) : Bool := c ≠ '<' && c ≠ '('

/-- Character class `[^>(]` (group 2 of `AUTHOR_PATTERN`). -/
def emailClass (c : Char) : Bool := c ≠ '>' && c ≠ '('

/-- Split a list at the first element satisfying `p`: returns the (shortest)
prefix of non-`p` elements and the remainder after the found element. -/
def splitFirst (p : Char → Bool) : List Char → Option (List Char × List Char)
  | [] => none
  | c :: rest =>
    if p c then some ([], rest)
    else (splitFirst p rest).map (fun ab => (c :: ab.1, ab.2))

/-- Python `$` (no `re.MULTILINE`): matches at the end of the input or just
before a newline that is the last character. -/
def tryDollar (t : List Char) : Option (Option (List Char)) :=
  if t = [] || t = ['\n'] then some none else none

/-- The final alternation `(?:\(([^)]+?)\)|$)` of `AUTHOR_PATTERN` at suffix `t`:
first try `\(([^)]+?)\)` (the lazy group stops at the first `)`; nothing follows
it in the pattern, so the first closing parenthesis wins), then try `$`.
Returns group 3. -/
def tailEnd (t : List Char) : Option (Option (List Char)) :=
  match t with
  | '(' :: rest =>
    match splitFirst (fun c => c = ')') rest with
    | some (pre, _) => if pre = [] then tryDollar t else some (some pre)
    | none => tryDollar t
  | _ => tryDollar t

/-- Greedy `[ \t]*` with backtracking: consume as many `[ \t]` characters as
possible, then hand over to the continuation `κ`, retrying with fewer consumed
characters if `κ` fails. -/
def wsStar {α : Type} (κ : List Char → Option α) : List Char → Option α
  | [] => κ []
  | c :: rest =>
    if wsClass c then
      match wsStar κ rest with
      | some r => some r
      | none => κ (c :: rest)
    else κ (c :: rest)

/-- `[ \t]*(?:\(([^)]+?)\)|$)`: the part of `AUTHOR_PATTERN` after group 2. -/
def wsThenEnd : List Char → Option (Option (List Char)) := wsStar tailEnd

/-- Body of the group-2 alternative `<([^>(]+?)>` after the `<`: the lazy class
`[^>(]+?` cannot cross a `>` or `(`, so the only candidate ends at the first
such character, which must be `>` with at least one preceding character; then
the continuation `wsThenEnd` must succeed (a failure cannot be repaired by a
longer group 2, so it fails the whole alternative). `acc` holds the characters
consumed so far by the lazy class. -/
def emailScan (acc : List Char) : List Char → Option (List Char × Option (List Char))
  | [] => none
  | c :: rest =>
    if c = '>' then
      if acc = [] then none
      else
        match wsThenEnd rest with
        | some g3 => some (acc, g3)
        | none => none
    else if c = '(' then none
    else emailScan (acc ++ [c]) rest

/-- `(?:<([^>(]+?)>)?[ \t]*(?:\(([^)]+?)\)|$)`: the part of `AUTHOR_PATTERN`
after group 1 and the first `[ \t]*`. The optional group prefers to match;
if its alternative fails it is skipped. Returns groups 2 and 3. -/
def emailPart (t : List Char) : Option (Option (List Char) × Option (List Char)) :=
  match t with
  | '<' :: rest =>
    match emailScan [] rest with
    | some (e, g3) => some (some e, g3)
    | none => (wsThenEnd t).map (fun g3 => (none, g3))
  | _ => (wsThenEnd t).map (fun g3 => (none, g3))

/-- Group 1 `([^<(]+?)` of `AUTHOR_PATTERN` (the present case): lazily try
candidate captures `acc ++ (nonempty prefixes of the remaining input)`,
shortest first, each followed by `[ \t]*` and `emailPart`. -/
def g1Search (acc : List Char) :
    List Char → Option (Option (List Char) × Option (List Char) × Option (List Char))
  | [] => none
  | c :: rest =>
    if nameClass c then
      match wsStar emailPart rest with
      | some (e, g3) => some (some (acc ++ [c]), e, g3)
      | none => g1Search (acc ++ [c]) rest
    else none

/-- `re.match(AUTHOR_PATTERN, s)`: group 1 prefers to participate (lengths
ascending), and only if every length fails is it skipped. Returns
`some (group1, group2, group3)` on a match, `none` when the whole pattern
fails to match. -/
def authorMatch (s : List Char) :
    Option (Option (List Char) × Option (List Char) × Option (List Char)) :=
  match g1Search [] s with
  | some r => some r
  | none => (wsStar emailPart s).map (fun eg => (none, eg.1, eg.2))

/-- `NodeJSMetadataSource._parse_person`. The input is the Python
`dict[str, str]` for an author/contributor. Mirrors:
if `{"url", "email"} & person.keys()`, build `{name: person["name"]}` plus
`email` if present; otherwise run `AUTHOR_PATTERN` on `person["name"]`,
raising `ValueError` if it does not match, and build the result from
groups 1 and 2 (group 1 may be `None`). A missing `"name"` key raises
`KeyError("name")`. -/
def parse_person (person : List (String × String)) : Except PyErr PRec :=
  if (dictGet person "url").isSome || (dictGet person "email").isSome then
    match dictGet person "name" with
    | none => .error (.keyError "name")
    | some n =>
      match dictGet person "email" with
      | some e => .ok [("name", some n), ("email", some e)]
      | none => .ok [("name", some n)]
  else
    match dictGet person "name" with
    | none => .error (.keyError "name")
    | some n =>
      match authorMatch n.data with
      | none => .error (.valueError ("Invalid author name: " ++ n))
      | some (g1, g2, _) =>
        match g2 with
        | some e => .ok [("name", g1.map String.mk), ("email", some (String.mk e))]
        | none => .ok [("name", g1.map String.mk)]

/-- The `bugs` field of a manifest: a string or a `dict[str, str]`. -/
inductive BugsInput where
  | str : String → BugsInput
  | obj : List (String × String) → BugsInput
deriving DecidableEq, Repr

/-- `NodeJSMetadataSource._parse_bugs`: a string is returned verbatim; an
object resolves to its `"url"` value, or to `None` when it has no `"url"` key. -/
def parse_bugs : BugsInput → Option String
  | .str s => some s
  | .obj d =>
    match dictGet d "url" with
    | none => none
    | some u => some u

/-! ### `REPOSITORY_PATTERN = r"^(?:(gist|bitbucket|gitlab|github):)?(.*?)$"` -/

/-- Match a literal prefix, returning the remainder. -/
def stripPrefixL : List Char → List Char → Option (List Char)
  | [], t => some t
  | p :: ps, c :: cs => if p = c then stripPrefixL ps cs else none
  | _ :: _, [] => none

/-- The alternation `(gist|bitbucket|gitlab|github)` followed by `:`, tried in
the pattern's order (the four literals are pairwise non-prefixes of each other,
so at most one can match). -/
def stripTag (s : List Char) : Option (String × List Char) :=
  match stripPrefixL "gist:".data s with
  | some r => some ("gist", r)
  | none =>
    match stripPrefixL "bitbucket:".data s with
    | some r => some ("bitbucket", r)
    | none =>
      match stripPrefixL "gitlab:".data s with
      | some r => some ("gitlab", r)
      | none =>
        match stripPrefixL "github:".data s with
        | some r => some ("github", r)
        | none => none

/-- `(.*?)$` of `REPOSITORY_PATTERN`: lazily extend group 2 over non-newline
characters until `$` matches (end of input, or just before a newline that is
the last character). Fails exactly when the input has a newline before its
last character. -/
def lazyRest (acc : List Char) : List Char → Option (List Char)
  | [] => some acc
  | c :: rest =>
    if c = '\n' then (if rest = [] then some acc else none)
    else lazyRest (acc ++ [c]) rest

/-- `re.match(REPOSITORY_PATTERN, s)`, returning `(group 1, group 2)`. The
optional tag group is greedy: if it matches but `(.*?)$` then fails, the
matcher backtracks to the untagged reading (which fails for the same reason,
kept for fidelity). -/
def repoMatch (s : List Char) : Option (Option String × List Char) :=
  match stripTag s with
  | some (k, rest) =>
    match lazyRest [] rest with
    | some id => some (some k, id)
    | none => (lazyRest [] s).map (fun id => (none, id))
  | none => (lazyRest [] s).map (fun id => (none, id))

/-- `REPOSITORY_TABLE` of `metadata_source.py`. -/
def REPOSITORY_TABLE : List (String × String) :=
  [("gitlab", "https://gitlab.com"),
   ("github", "https://github.com"),
   ("gist", "https://gist.github.com"),
   ("bitbucket", "https://bitbucket.org")]

/-! ### `urllib.parse` (CPython 3.11), transcribed for `str` arguments with
`allow_fragments=True`.

`urlsplit` strips leading C0-control-or-space characters from the URL, removes
every tab, carriage return and newline, detects the scheme, splits off the
netloc, fragment and query, and rejects a netloc with unbalanced square
brackets (`ValueError("Invalid IPv6 URL")`).  Two checks of CPython are not
modelled because they need Unicode tables: `_check_bracketed_host` (validation
of a host inside balanced `[...]`) and the non-ASCII NFKC netloc check of
`_checknetloc`; both only touch URLs whose authority has brackets or non-ASCII
characters, and none of the properties proved below depend on them. -/

/-- The five components returned by `urlsplit`. -/
structure SplitR where
  scheme : List Char
  netloc : List Char
  path : List Char
  query : List Char
  fragment : List Char
deriving DecidableEq, Repr

/-- `_WHATWG_C0_CONTROL_OR_SPACE` membership: code points `U+0000`–`U+0020`. -/
def c0sp (c : Char) : Bool := c.toNat ≤ 32

/-- `_UNSAFE_URL_BYTES_TO_REMOVE`: tab, carriage return, newline. -/
def unsafeByte (c : Char) : Bool := c = '\t' || c = '\r' || c = '\n'

/-- Python `str.strip` over a character predicate. -/
def stripBoth (p : Char → Bool) (l : List Char) : List Char :=
  ((l.dropWhile p).reverse.dropWhile p).reverse

/-- `scheme_chars` of `urllib.parse`: ASCII letters, digits, `+`, `-`, `.`. -/
def schemeChar (c : Char) : Bool :=
  ('a' ≤ c && c ≤ 'z') || ('A' ≤ c && c ≤ 'Z') || ('0' ≤ c && c ≤ '9') ||
    c = '+' || c = '-' || c = '.'

/-- ASCII `url[0].isascii() and url[0].isalpha()`. -/
def asciiAlpha (c : Char) : Bool := ('a' ≤ c && c ≤ 'z') || ('A' ≤ c && c ≤ 'Z')

/-- ASCII `str.lower` (only applied to strings of `scheme_chars`). -/
def lowerChar (c : Char) : Char :=
  if 'A' ≤ c && c ≤ 'Z' then Char.ofNat (c.toNat + 32) else c

/-- `_splitnetloc(url, 2)`: the netloc runs to the earliest of `/`, `?`, `#`. -/
def netlocDelim (c : Char) : Bool := c = '/' || c = '?' || c = '#'

/-- `urlsplit(url, scheme)` for `str` inputs, `allow_fragments=True`. -/
def urlsplit (urlIn schemeIn : List Char) : Except PyErr SplitR :=
  let url := (urlIn.dropWhile c0sp).filter (fun c => !unsafeByte c)
  let scheme0 := (stripBoth c0sp schemeIn).filter (fun c => !unsafeByte c)
  let (scheme, url) :=
    match url.findIdx? (fun c => c = ':') with
    | some i =>
      if 0 < i && asciiAlpha (url.headD ' ') && (url.take i).all schemeChar then
        ((url.take i).map lowerChar, url.drop (i + 1))
      else (scheme0, url)
    | none => (scheme0, url)
  match url with
  | '/' :: '/' :: rest =>
    let netloc := rest.takeWhile (fun c => !netlocDelim c)
    let url := rest.dropWhile (fun c => !netlocDelim c)
    if ('[' ∈ netloc && ']' ∉ netloc) || (']' ∈ netloc && '[' ∉ netloc) then
      .error (.valueError "Invalid IPv6 URL")
    else
      let (url, fragment) :=
        match splitFirst (fun c => c = '#') url with
        | some (u, f) => (u, f)
        | none => (url, [])
      let (url, query) :=
        match splitFirst (fun c => c = '?') url with
        | some (u, q) => (u, q)
        | none => (url, [])
      .ok ⟨scheme, netloc, url, query, fragment⟩
  | _ =>
    let (url, fragment) :=
      match splitFirst (fun c => c = '#') url with
      | some (u, f) => (u, f)
      | none => (url, [])
    let (url, query) :=
      match splitFirst (fun c => c = '?') url with
      | some (u, q) => (u, q)
      | none => (url, [])
    .ok ⟨scheme, [], url, query, fragment⟩

/-- `uses_relative` of `urllib.parse`. -/
def uses_relative : List String :=
  ["", "ftp", "http", "gopher", "nntp", "imap", "wais", "file", "https", "shttp",
   "mms", "prospero", "rtsp", "rtsps", "rtspu", "sftp", "svn", "svn+ssh", "ws", "wss"]

/-- `uses_netloc` of `urllib.parse`. -/
def uses_netloc : List String :=
  ["", "ftp", "http", "gopher", "nntp", "telnet", "imap", "wais", "file", "mms",
   "https", "shttp", "snews", "prospero", "rtsp", "rtsps", "rtspu", "rsync", "svn",
   "svn+ssh", "sftp", "nfs", "git", "git+ssh", "ws", "wss"]

/-- `uses_params` of `urllib.parse`. -/
def uses_params : List String :=
  ["", "ftp", "hdl", "prospero", "http", "imap", "https", "shttp", "rtsp", "rtsps",
   "rtspu", "sip", "sips", "mms", "sftp", "tel"]

/-- The six components returned by `urlparse`. -/
structure ParseR where
  scheme : List Char
  netloc : List Char
  path : List Char
  params : List Char
  query : List Char
  fragment : List Char
deriving DecidableEq, Repr

/-- Python `str.rfind(c)`: index of the last occurrence, `-1` encoded as `none`. -/
def rfindIdx (p : Char → Bool) (l : List Char) : Option Nat :=
  match (l.reverse.findIdx? p) with
  | some j => some (l.length - 1 - j)
  | none => none

/-- Python `str.find(c, start)`: first index `≥ start`, `-1` encoded as `none`. -/
def findIdxFrom (p : Char → Bool) (l : List Char) (start : Nat) : Option Nat :=
  ((l.drop start).findIdx? p).map (· + start)

/-- `_splitparams(url)`: split the params off the last path segment. -/
def splitparams (url : List Char) : List Char × List Char :=
  if '/' ∈ url then
    match findIdxFrom (fun c => c = ';') url ((rfindIdx (fun c => c = '/') url).getD 0) with
    | none => (url, [])
    | some i => (url.take i, url.drop (i + 1))
  else
    match url.findIdx? (fun c => c = ';') with
    | none => (url, [])
    | some i => (url.take i, url.drop (i + 1))

/-- `urlparse(url, scheme)` for `str` inputs, `allow_fragments=True`. -/
def urlparse (url scheme : List Char) : Except PyErr ParseR := do
  let s ← urlsplit url scheme
  if uses_params.contains (String.mk s.scheme) && ';' ∈ s.path then
    let (p, params) := splitparams s.path
    return ⟨s.scheme, s.netloc, p, params, s.query, s.fragment⟩
  else
    return ⟨s.scheme, s.netloc, s.path, [], s.query, s.fragment⟩

/-- `urlunsplit((scheme, netloc, url, query, fragment))`. -/
def urlunsplit (scheme netloc url query fragment : List Char) : List Char :=
  let url :=
    if netloc ≠ [] ||
        (scheme ≠ [] && uses_netloc.contains (String.mk scheme) && url.take 2 ≠ ['/', '/'])
    then
      let url := if url ≠ [] && url.take 1 ≠ ['/'] then '/' :: url else url
      '/' :: '/' :: (netloc ++ url)
    else url
  let url := if scheme ≠ [] then scheme ++ ':' :: url else url
  let url := if query ≠ [] then url ++ '?' :: query else url
  if fragment ≠ [] then url ++ '#' :: fragment else url

/-- `urlunparse((scheme, netloc, url, params, query, fragment))`. -/
def urlunparse (r : ParseR) : List Char :=
  let url := if r.params ≠ [] then r.path ++ ';' :: r.params else r.path
  urlunsplit r.scheme r.netloc url r.query r.fragment

/-- Python `str.split(sep)` for a one-character separator (always nonempty). -/
def splitOnChar (sep : Char) : List Char → List (List Char)
  | [] => [[]]
  | c :: rest =>
    match splitOnChar sep rest with
    | [] => [[]]
    | first :: parts => if c = sep then [] :: first :: parts else (c :: first) :: parts

/-- `segments[1:-1] = filter(None, segments[1:-1])` of `urljoin`. -/
def filterMiddle (segments : List (List Char)) : List (List Char) :=
  match segments with
  | [] => []
  | [x] => [x]
  | x :: y :: rest =>
    x :: (((y :: rest).dropLast.filter (fun s => s ≠ [])) ++ [(y :: rest).getLastD []])

/-- The `..` / `.` resolution loop of `urljoin` (`resolved_path`); `..` pops the
last resolved segment, silently doing nothing on an empty list. -/
def resolveSegs (acc : List (List Char)) : List (List Char) → List (List Char)
  | [] => acc
  | s :: rest =>
    if s = "..".data then resolveSegs acc.dropLast rest
    else if s = ".".data then resolveSegs acc rest
    else resolveSegs (acc ++ [s]) rest

/-- `'/'.join(resolved_path)`. -/
def joinSlash : List (List Char) → List Char
  | [] => []
  | [x] => x
  | x :: y :: rest => x ++ '/' :: joinSlash (y :: rest)

/-- `urllib.parse.urljoin(base, url)` for `str` inputs, transcribed from
CPython 3.11. Can raise (through `urlsplit`), hence `Except`. -/
def urljoin (base url : String) : Except PyErr String := do
  if base = "" then return url
  if url = "" then return base
  let b ← urlparse base.data []
  let r ← urlparse url.data b.scheme
  if r.scheme ≠ b.scheme || !uses_relative.contains (String.mk r.scheme) then
    return url
  let netloc ←
    if uses_netloc.contains (String.mk r.scheme) then
      if r.netloc ≠ [] then
        return String.mk (urlunparse r)
      else pure b.netloc
    else pure r.netloc
  if r.path = [] && r.params = [] then
    let query := if r.query = [] then b.query else r.query
    return String.mk (urlunparse ⟨r.scheme, netloc, b.path, b.params, query, r.fragment⟩)
  let baseParts0 := splitOnChar '/' b.path
  let baseParts := if baseParts0.getLastD [] ≠ [] then baseParts0.dropLast else baseParts0
  let segments :=
    if r.path.take 1 = ['/'] then splitOnChar '/' r.path
    else filterMiddle (baseParts ++ splitOnChar '/' r.path)
  let resolved := resolveSegs [] segments
  let resolved :=
    if segments.getLastD [] = ".".data || segments.getLastD [] = "..".data then
      resolved ++ [[]]
    else resolved
  let joined := joinSlash resolved
  let path := if joined = [] then ['/'] else joined
  return String.mk (urlunparse ⟨r.scheme, netloc, path, r.params, r.query, r.fragment⟩)

/-- The `repository` field of a manifest: a string or a `dict[str, str]`. -/
inductive RepoInput where
  | str : String → RepoInput
  | obj : List (String × String) → RepoInput
deriving DecidableEq, Repr

/-- `NodeJSMetadataSource._parse_repository`: the string form is matched
against `REPOSITORY_PATTERN` (raising `ValueError` on failure), the tag
defaults to `github`, and the result is
`urljoin(REPOSITORY_TABLE[kind], identifier)`; the object form returns
`repository["url"]`, raising `KeyError` when the key is missing. -/
def parse_repository : RepoInput → Except PyErr String
  | .str s =>
    match repoMatch s.data with
    | none => .error (.valueError ("Invalid repository string: " ++ s))
    | some (kind, identifier) =>
      let kind := kind.getD "github"
      match dictGet REPOSITORY_TABLE kind with
      | none => .error (.keyError kind)
      | some base => urljoin base (String.mk identifier)
  | .obj d =>
    match dictGet d "url" with
    | none => .error (.keyError "url")
    | some u => .ok u

/-! ### The metadata hook -/

/-- A loaded `package.json` manifest, restricted to the keys `update` reads.
`none` is an absent key. (`load_package_data` itself — path resolution and
file reading — is outside this model; `update` below takes the loaded
manifest as an argument.) -/
structure Package where
  author : Option (List (String × String)) := none
  contributors : Option (List (List (String × String))) := none
  keywords : Option (List String) := none
  description : Option String := none
  license : Option String := none
  homepage : Option String := none
  bugs : Option BugsInput := none
  repository : Option RepoInput := none
deriving DecidableEq, Repr

/-- The destination `metadata` dict, restricted to the keys `update` writes.
`none` is an absent key. -/
structure Metadata where
  author : Option PRec := none
  maintainers : Option (List PRec) := none
  keywords : Option (List String) := none
  description : Option String := none
  license : Option String := none
  urls : Option (List (String × String)) := none
deriving DecidableEq, Repr

/-- The metadata dict before `update` touched it (all keys absent). -/
def emptyMetadata : Metadata := {}

/-- A Python list comprehension over a fallible function: stops at the first
raised exception. -/
def mapExcept {α β : Type} (f : α → Except PyErr β) : List α → Except PyErr (List β)
  | [] => .ok []
  | x :: rest => do
    let y ← f x
    let ys ← mapExcept f rest
    .ok (y :: ys)

/-- The `# Construct URLs` block of `update`: `homepage` goes in under
`"homepage"`, `bugs` under `"bug tracker"` unless `_parse_bugs` returned
`None`, and `repository` under `"repository"` (propagating any exception of
`_parse_repository`). -/
def buildUrls (package : Package) : Except PyErr (List (String × String)) := do
  let urls : List (String × String) := []
  let urls :=
    match package.homepage with
    | some h => urls ++ [("homepage", h)]
    | none => urls
  let urls :=
    match package.bugs with
    | some b =>
      match parse_bugs b with
      | some u => urls ++ [("bug tracker", u)]
      | none => urls
    | none => urls
  match package.repository with
  | some r => do
    let u ← parse_repository r
    .ok (urls ++ [("repository", u)])
  | none => .ok urls

/-- `NodeJSMetadataSource.update(metadata)` on a loaded manifest: each present
manifest field is parsed and written to the corresponding metadata key
(`author`, `maintainers`, `keywords`, `description`, `license`), absent fields
leave the destination key untouched, and the URL map is written under `urls`
only when it is non-empty. Exceptions of the parsers propagate in source
order: `author`, then `contributors`, then the URL block. -/
def update (package : Package) (metadata : Metadata) : Except PyErr Metadata :=
  (match package.author with
   | some a => Except.map some (parse_person a)
   | none => .ok none) >>= fun author =>
  (match package.contributors with
   | some cs => Except.map some (mapExcept parse_person cs)
   | none => .ok none) >>= fun maintainers =>
  buildUrls package >>= fun urls =>
  .ok
    { author := match author with | some r => some r | none => metadata.author
      maintainers := match maintainers with | some m => some m | none => metadata.maintainers
      keywords := match package.keywords with | some k => some k | none => metadata.keywords
      description :=
        match package.description with | some d => some d | none => metadata.description
      license := match package.license with | some l => some l | none => metadata.license
      urls := if urls = [] then metadata.urls else some urls }

/-! ### Helper lemmas -/

theorem string_data_append (a b : String) : (a ++ b).data = a.data ++ b.data := by
  cases a; cases b; rfl

theorem string_mk_data (s : String) : String.mk s.data = s := by
  cases s; rfl

/-! ### Claim C1 -/

/-- Claim C1 as frozen is falsified by an already-structured object that has an
`email` key but no `name` key: `_parse_person` then raises `KeyError("name")`
instead of returning a record. -/
theorem c1_counterexample :
    parse_person [("email", "a@b")] = .error (.keyError "name") := rfl

/-- Claim C1 (amended: the object must also carry a `name` key): for every
author/contributor object with an `email` or `url` key and a `name` key, the
parser returns a record whose `name` equals the input's name verbatim, whose
`email` key is present iff the input has one, and which has no `url` key. -/
theorem c1_structured_author (d : List (String × String)) (n : String)
    (hkey : (dictGet d "email").isSome = true ∨ (dictGet d "url").isSome = true)
    (hname : dictGet d "name" = some n) :
    ∃ r, parse_person d = .ok r ∧ dictGet r "name" = some (some n) ∧
      ((dictGet r "email").isSome = (dictGet d "email").isSome) ∧
      dictGet r "url" = none := by
  have hcond : ((dictGet d "url").isSome || (dictGet d "email").isSome) = true := by
    rcases hkey with h | h <;> simp [h]
  cases he : dictGet d "email" with
  | some e =>
    refine ⟨[("name", some n), ("email", some e)], ?_, ?_⟩
    · simp [parse_person, hcond, hname, he]
    · simp [dictGet, he]
  | none =>
    have hu : (dictGet d "url").isSome = true := by
      rcases hkey with h | h
      · rw [he] at h; exact absurd h (by simp)
      · exact h
    refine ⟨[("name", some n)], ?_, ?_⟩
    · simp [parse_person, hu, hname, he]
    · simp [dictGet, he]

theorem c1_witness :
    ∃ r, parse_person [("name", "Jane"), ("email", "j@d")] = .ok r ∧
      dictGet r "name" = some (some "Jane") ∧
      ((dictGet r "email").isSome =
        (dictGet [("name", "Jane"), ("email", "j@d")] "email").isSome) ∧
      dictGet r "url" = none :=
  c1_structured_author [("name", "Jane"), ("email", "j@d")] "Jane"
    (Or.inl (by decide)) (by decide)

/-! ### Claim C3 -/

/-- Claim C3 as frozen is falsified by the empty author string: the pattern
matches with group 1 absent, so Python stores `None` (not a string, in
particular not `""`) under `"name"`. -/
theorem c3_counterexample :
    parse_person [("name", "")] = .ok [("name", none)] ∧
      (none : Option String) ≠ some "" := ⟨rfl, by decide⟩

/-- Claim C3 (amended: when the matched string captured no display name the
`name` key holds `None` rather than an empty string): every record emitted by
`_parse_person` has a `name` key, and its `email` key, when present, holds a
string (never `None`). -/
theorem c3_person_record_invariant (d : List (String × String)) (r : PRec)
    (h : parse_person d = .ok r) :
    (∃ v, dictGet r "name" = some v) ∧
      (∀ v, dictGet r "email" = some v → ∃ s, v = some s) := by
  unfold parse_person at h
  split at h
  · split at h
    · exact absurd h (by simp)
    · split at h
      · injection h with h
        subst h
        refine ⟨⟨_, rfl⟩, ?_⟩
        intro v hv
        exact ⟨_, (Option.some.inj hv).symm⟩
      · injection h with h
        subst h
        refine ⟨⟨_, rfl⟩, ?_⟩
        intro v hv
        simp [dictGet] at hv
  · split at h
    · exact absurd h (by simp)
    · split at h
      · exact absurd h (by simp)
      · split at h
        · injection h with h
          subst h
          refine ⟨⟨_, rfl⟩, ?_⟩
          intro v hv
          exact ⟨_, (Option.some.inj hv).symm⟩
        · injection h with h
          subst h
          refine ⟨⟨_, rfl⟩, ?_⟩
          intro v hv
          simp [dictGet] at hv

theorem c3_witness :
    (∃ v, dictGet [(("name" : String), some "A")] "name" = some v) ∧
      (∀ v, dictGet [(("name" : String), some "A")] "email" = some v →
        ∃ s, v = some s) :=
  c3_person_record_invariant [("name", "A")] [("name", some "A")] rfl

/-! ### Claim C9 -/

/-- Claim C9: an author name string that fails to match `AUTHOR_PATTERN` makes
`_parse_person` raise `ValueError` with a message naming the offending string,
and a string that matches never raises. -/
theorem c9_person_error (s : String) :
    (authorMatch s.data = none →
      parse_person [("name", s)] = .error (.valueError ("Invalid author name: " ++ s))) ∧
    (authorMatch s.data ≠ none → ∃ r, parse_person [("name", s)] = .ok r) := by
  constructor
  · intro h
    simp [parse_person, dictGet, h]
  · intro h
    cases hm : authorMatch s.data with
    | none => exact absurd hm h
    | some g =>
      obtain ⟨g1, g2, g3⟩ := g
      cases g2 with
      | none =>
        exact ⟨[("name", g1.map String.mk)], by simp [parse_person, dictGet, hm]⟩
      | some e =>
        exact ⟨[("name", g1.map String.mk), ("email", some (String.mk e))],
          by simp [parse_person, dictGet, hm]⟩

theorem c9_witness :
    (parse_person [("name", "(a")] = .error (.valueError "Invalid author name: (a")) ∧
      (∃ r, parse_person [("name", "ab")] = .ok r) :=
  ⟨(c9_person_error "(a").1 rfl, (c9_person_error "ab").2 (by decide)⟩

/-! ### Claim C10 -/

/-- Claim C10: a `repository` object without a `url` key makes
`_parse_repository` raise `KeyError("url")`, which `update` propagates,
whereas `_parse_bugs` treats the same shape as mere absence. -/
theorem c10_repository_object_keyerror :
    (∀ d : List (String × String), dictGet d "url" = none →
      parse_repository (.obj d) = .error (.keyError "url")) ∧
    (∀ (d : List (String × String)) (meta : Metadata), dictGet d "url" = none →
      update { repository := some (.obj d) } meta = .error (.keyError "url")) ∧
    (∀ d : List (String × String), dictGet d "url" = none →
      parse_bugs (.obj d) = none) := by
  refine ⟨?_, ?_, ?_⟩
  · intro d h
    simp [parse_repository, h]
  · intro d meta h
    have hp : parse_repository (.obj d) = .error (.keyError "url") := by
      simp [parse_repository, h]
    simp only [update, buildUrls, hp]
    rfl
  · intro d h
    simp [parse_bugs, h]

theorem c10_witness :
    parse_repository (.obj [("web", "x")]) = .error (.keyError "url") ∧
      update { repository := some (.obj [("web", "x")]) } emptyMetadata =
        .error (.keyError "url") ∧
      parse_bugs (.obj [("web", "x")]) = none :=
  ⟨c10_repository_object_keyerror.1 [("web", "x")] rfl,
   c10_repository_object_keyerror.2.1 [("web", "x")] emptyMetadata rfl,
   c10_repository_object_keyerror.2.2 [("web", "x")] rfl⟩

/-! ### `update` helper lemmas -/

theorem exceptBind_ok {ε α β : Type} (x : Except ε α) (f : α → Except ε β) (b : β) :
    (x >>= f) = .ok b ↔ ∃ a, x = .ok a ∧ f a = .ok b := by
  cases x <;> simp [Bind.bind, Except.bind]

/-- `update` succeeds exactly with the URL map of `buildUrls`, and writes it
to the `urls` key only when it is non-empty. -/
theorem update_ok_urls (pkg : Package) (meta m : Metadata)
    (h : update pkg meta = .ok m) :
    ∃ l, buildUrls pkg = .ok l ∧ m.urls = if l = [] then meta.urls else some l := by
  unfold update at h
  rw [exceptBind_ok] at h
  obtain ⟨author, h1, h⟩ := h
  rw [exceptBind_ok] at h
  obtain ⟨maint, h2, h⟩ := h
  rw [exceptBind_ok] at h
  obtain ⟨urls, h3, h⟩ := h
  injection h with h
  subst h
  exact ⟨urls, h3, rfl⟩

/-- When the manifest's `bugs` entry resolves to a URL, `buildUrls` records it
under `"bug tracker"` and the map is non-empty. -/
theorem buildUrls_bug_entry (pkg : Package) (b : BugsInput) (u : String)
    (l : List (String × String)) (hb : pkg.bugs = some b)
    (hu : parse_bugs b = some u) (hl : buildUrls pkg = .ok l) :
    dictGet l "bug tracker" = some u ∧ l ≠ [] := by
  unfold buildUrls at hl
  cases hH : pkg.homepage with
  | none =>
    simp only [hb, hu, hH] at hl
    cases hR : pkg.repository with
    | none =>
      simp only [hR] at hl
      injection hl with hl
      subst hl
      exact ⟨by simp [dictGet], by simp⟩
    | some r =>
      simp only [hR] at hl
      rw [exceptBind_ok] at hl
      obtain ⟨u', hu', hl⟩ := hl
      injection hl with hl
      subst hl
      exact ⟨by simp [dictGet], by simp⟩
  | some hp =>
    simp only [hb, hu, hH] at hl
    cases hR : pkg.repository with
    | none =>
      simp only [hR] at hl
      injection hl with hl
      subst hl
      exact ⟨by simp [dictGet], by simp⟩
    | some r =>
      simp only [hR] at hl
      rw [exceptBind_ok] at hl
      obtain ⟨u', hu', hl⟩ := hl
      injection hl with hl
      subst hl
      exact ⟨by simp [dictGet], by simp⟩

/-- When the manifest's `bugs` entry resolves to `None`, `buildUrls` has no
`"bug tracker"` key. -/
theorem buildUrls_no_bug_entry (pkg : Package) (b : BugsInput)
    (l : List (String × String)) (hb : pkg.bugs = some b)
    (hu : parse_bugs b = none) (hl : buildUrls pkg = .ok l) :
    dictGet l "bug tracker" = none := by
  unfold buildUrls at hl
  cases hH : pkg.homepage with
  | none =>
    simp only [hb, hu, hH] at hl
    cases hR : pkg.repository with
    | none =>
      simp only [hR] at hl
      injection hl with hl
      subst hl
      rfl
    | some r =>
      simp only [hR] at hl
      rw [exceptBind_ok] at hl
      obtain ⟨u', hu', hl⟩ := hl
      injection hl with hl
      subst hl
      simp [dictGet]
  | some hp =>
    simp only [hb, hu, hH] at hl
    cases hR : pkg.repository with
    | none =>
      simp only [hR] at hl
      injection hl with hl
      subst hl
      simp [dictGet]
    | some r =>
      simp only [hR] at hl
      rw [exceptBind_ok] at hl
      obtain ⟨u', hu', hl⟩ := hl
      injection hl with hl
      subst hl
      simp [dictGet]

/-! ### Claim C7 -/

/-- Claim C7: `_parse_bugs` returns a string verbatim; an object without a
`url` key resolves to `None` (and `update` then omits the `"bug tracker"`
label from the URL map), otherwise to its `url` value, which `update` inserts
under `"bug tracker"`. -/
theorem c7_bugs_resolver :
    (∀ s, parse_bugs (.str s) = some s) ∧
    (∀ d, parse_bugs (.obj d) = none ↔ dictGet d "url" = none) ∧
    (∀ d u, dictGet d "url" = some u → parse_bugs (.obj d) = some u) ∧
    (∀ (pkg : Package) (meta m : Metadata) (b : BugsInput) (u : String),
      update pkg meta = .ok m → pkg.bugs = some b → parse_bugs b = some u →
      dictGet (m.urls.getD []) "bug tracker" = some u) ∧
    (∀ (pkg : Package) (b : BugsInput) (l : List (String × String)),
      pkg.bugs = some b → parse_bugs b = none → buildUrls pkg = .ok l →
      dictGet l "bug tracker" = none) := by
  refine ⟨fun s => rfl, ?_, ?_, ?_, ?_⟩
  · intro d
    cases h : dictGet d "url" <;> simp [parse_bugs, h]
  · intro d u h
    simp [parse_bugs, h]
  · intro pkg meta m b u hup hb hu
    obtain ⟨l, hbu, hurls⟩ := update_ok_urls pkg meta m hup
    obtain ⟨hmem, hne⟩ := buildUrls_bug_entry pkg b u l hb hu hbu
    rw [hurls, if_neg hne]
    simpa using hmem
  · exact buildUrls_no_bug_entry

theorem c7_witness :
    parse_bugs (.obj [("url", "b1")]) = some "b1" ∧
      dictGet ((({ urls := some [("bug tracker", "b1")] } : Metadata).urls).getD [])
        "bug tracker" = some "b1" ∧
      dictGet ([] : List (String × String)) "bug tracker" = none :=
  ⟨c7_bugs_resolver.2.2.1 [("url", "b1")] "b1" rfl,
   c7_bugs_resolver.2.2.2.1 { bugs := some (.obj [("url", "b1")]) } emptyMetadata
     { urls := some [("bug tracker", "b1")] } (.obj [("url", "b1")]) "b1" rfl rfl rfl,
   c7_bugs_resolver.2.2.2.2 { bugs := some (.obj []) } (.obj []) [] rfl rfl rfl⟩

/-! ### Claim C8 -/

/-- Claim C8: `update` writes only the keys of present manifest fields — on a
manifest holding only `description`, every other destination key is left
untouched (absent when starting from absent) — and the `urls` key is written
only when the assembled URL map is non-empty. -/
theorem c8_update_frame :
    (∀ x : String,
      update { description := some x } emptyMetadata =
        .ok { description := some x }) ∧
    (∀ (pkg : Package) (meta m : Metadata), update pkg meta = .ok m →
      ∃ l, buildUrls pkg = .ok l ∧ m.urls = if l = [] then meta.urls else some l) :=
  ⟨fun _ => rfl, update_ok_urls⟩

theorem c8_witness :
    ∃ l, buildUrls { homepage := some "h" } = .ok l ∧
      ({ urls := some [("homepage", "h")] } : Metadata).urls =
        if l = [] then emptyMetadata.urls else some l :=
  c8_update_frame.2 { homepage := some "h" } emptyMetadata
    { urls := some [("homepage", "h")] } rfl

/-! ### Repository pattern lemmas -/

theorem lazyRest_no_newline (l : List Char) :
    ∀ acc, '\n' ∉ l → lazyRest acc l = some (acc ++ l) := by
  induction l with
  | nil => intro acc _; simp [lazyRest]
  | cons c rest ih =>
    intro acc h
    have hc : ¬ c = '\n' := fun hh => h (hh ▸ List.mem_cons_self c rest)
    have hrest : '\n' ∉ rest := fun hh => h (List.mem_cons_of_mem c hh)
    simp [lazyRest, hc, ih (acc ++ [c]) hrest]

theorem lazyRest_isSome (l : List Char) :
    ∀ acc, '\n' ∉ l.dropLast → (lazyRest acc l).isSome = true := by
  induction l with
  | nil => intro acc _; simp [lazyRest]
  | cons c rest ih =>
    intro acc h
    by_cases hc : c = '\n'
    · subst hc
      cases rest with
      | nil => simp [lazyRest]
      | cons d ds =>
        exfalso
        apply h
        rw [List.dropLast_cons₂]
        exact List.mem_cons_self _ _
    · have h' : '\n' ∉ rest.dropLast := by
        intro hm
        apply h
        cases rest with
        | nil => simp at hm
        | cons d ds =>
          rw [List.dropLast_cons₂]
          exact List.mem_cons_of_mem c hm
      simp [lazyRest, hc, ih (acc ++ [c]) h']

theorem stripPrefixL_append (p l : List Char) : stripPrefixL p (p ++ l) = some l := by
  induction p with
  | nil => rfl
  | cons c ps ih => simp [stripPrefixL, ih]

theorem stripPrefixL_some (p : List Char) :
    ∀ s r, stripPrefixL p s = some r → s = p ++ r := by
  induction p with
  | nil =>
    intro s r h
    cases h
    rfl
  | cons c ps ih =>
    intro s r h
    cases s with
    | nil => exact absurd h (by simp [stripPrefixL])
    | cons d ds =>
      by_cases hc : c = d
      · subst hc
        simp only [stripPrefixL, if_pos rfl] at h
        rw [ih ds r h]
        rfl
      · simp [stripPrefixL, hc] at h

theorem stripPrefixL_none_iff (p : List Char) :
    ∀ s, stripPrefixL p s = none ↔ ¬ p <+: s := by
  induction p with
  | nil => intro s; simp [stripPrefixL, List.nil_prefix]
  | cons c ps ih =>
    intro s
    cases s with
    | nil => simp [stripPrefixL, List.prefix_nil]
    | cons d ds =>
      by_cases hc : c = d
      · subst hc
        simp [stripPrefixL, List.cons_prefix_cons, ih ds]
      · simp [stripPrefixL, hc, List.cons_prefix_cons]

theorem stripTag_gist (l : List Char) : stripTag ("gist:".data ++ l) = some ("gist", l) := rfl

theorem stripTag_bitbucket (l : List Char) :
    stripTag ("bitbucket:".data ++ l) = some ("bitbucket", l) := rfl

theorem stripTag_gitlab (l : List Char) :
    stripTag ("gitlab:".data ++ l) = some ("gitlab", l) := rfl

theorem stripTag_github (l : List Char) :
    stripTag ("github:".data ++ l) = some ("github", l) := rfl

/-- A successful `stripTag` split the input after a newline-free prefix. -/
theorem stripTag_split (s : List Char) (kr : String × List Char)
    (h : stripTag s = some kr) : ∃ p, s = p ++ kr.2 ∧ '\n' ∉ p := by
  unfold stripTag at h
  cases h1 : stripPrefixL "gist:".data s with
  | some r =>
    rw [h1] at h
    cases h
    exact ⟨_, stripPrefixL_some _ _ _ h1, by decide⟩
  | none =>
    rw [h1] at h
    cases h2 : stripPrefixL "bitbucket:".data s with
    | some r =>
      rw [h2] at h
      cases h
      exact ⟨_, stripPrefixL_some _ _ _ h2, by decide⟩
    | none =>
      rw [h2] at h
      cases h3 : stripPrefixL "gitlab:".data s with
      | some r =>
        rw [h3] at h
        cases h
        exact ⟨_, stripPrefixL_some _ _ _ h3, by decide⟩
      | none =>
        rw [h3] at h
        cases h4 : stripPrefixL "github:".data s with
        | some r =>
          rw [h4] at h
          cases h
          exact ⟨_, stripPrefixL_some _ _ _ h4, by decide⟩
        | none =>
          rw [h4] at h
          exact absurd h (by simp)

theorem repoMatch_tag_github (id : List Char) (h : '\n' ∉ id) :
    repoMatch ("github:".data ++ id) = some (some "github", id) := by
  unfold repoMatch
  rw [stripTag_github]
  simp [lazyRest_no_newline id [] h]

theorem repoMatch_tag_gitlab (id : List Char) (h : '\n' ∉ id) :
    repoMatch ("gitlab:".data ++ id) = some (some "gitlab", id) := by
  unfold repoMatch
  rw [stripTag_gitlab]
  simp [lazyRest_no_newline id [] h]

theorem repoMatch_tag_gist (id : List Char) (h : '\n' ∉ id) :
    repoMatch ("gist:".data ++ id) = some (some "gist", id) := by
  unfold repoMatch
  rw [stripTag_gist]
  simp [lazyRest_no_newline id [] h]

theorem repoMatch_tag_bitbucket (id : List Char) (h : '\n' ∉ id) :
    repoMatch ("bitbucket:".data ++ id) = some (some "bitbucket", id) := by
  unfold repoMatch
  rw [stripTag_bitbucket]
  simp [lazyRest_no_newline id [] h]

theorem repoMatch_untagged (s : List Char) (hn : '\n' ∉ s)
    (hg : ¬ ("gist:".data <+: s)) (hb : ¬ ("bitbucket:".data <+: s))
    (hl : ¬ ("gitlab:".data <+: s)) (hh : ¬ ("github:".data <+: s)) :
    repoMatch s = some (none, s) := by
  unfold repoMatch stripTag
  rw [(stripPrefixL_none_iff _ _).mpr hg, (stripPrefixL_none_iff _ _).mpr hb,
    (stripPrefixL_none_iff _ _).mpr hl, (stripPrefixL_none_iff _ _).mpr hh,
    lazyRest_no_newline s [] hn]
  rfl

/-- The string form of `_parse_repository` on a tagged, newline-free
identifier: the matched tag selects the provider base and the result is the
`urljoin` of that base with the identifier. -/
theorem parse_repository_tagged (id : String) (h : '\n' ∉ id.data) :
    parse_repository (.str ("github:" ++ id)) = urljoin "https://github.com" id ∧
    parse_repository (.str ("gitlab:" ++ id)) = urljoin "https://gitlab.com" id ∧
    parse_repository (.str ("gist:" ++ id)) = urljoin "https://gist.github.com" id ∧
    parse_repository (.str ("bitbucket:" ++ id)) = urljoin "https://bitbucket.org" id := by
  refine ⟨?_, ?_, ?_, ?_⟩ <;>
    · simp only [parse_repository]
      rw [string_data_append]
      first
      | rw [repoMatch_tag_github id.data h]
      | rw [repoMatch_tag_gitlab id.data h]
      | rw [repoMatch_tag_gist id.data h]
      | rw [repoMatch_tag_bitbucket id.data h]
      simp [dictGet, REPOSITORY_TABLE, string_mk_data]

/-! ### Claim C4 -/

/-- Claim C4 as frozen says every string with a known provider tag resolves to
the base joined with the identifier, but a tagged string whose remainder has
an interior newline fails the pattern (Python `.` does not match a newline and
`$` only matches at the end), so `_parse_repository` raises `ValueError`
instead of joining. -/
theorem c4_counterexample :
    parse_repository (.str "github:a\nb") =
      .error (.valueError "Invalid repository string: github:a\nb") := rfl

/-- Claim C4 (amended: the general clause holds for identifiers without a
newline): `"github:foo/bar"` resolves to `"https://github.com/foo/bar"`, the
untagged `"foo/bar"` to `"https://github.com/foo/bar"`, `"gitlab:baz/qux"` to
`"https://gitlab.com/baz/qux"`, and in general a known tag with a newline-free
identifier resolves to the provider's base URL joined with the identifier. -/
theorem c4_repository_tags :
    parse_repository (.str "github:foo/bar") = .ok "https://github.com/foo/bar" ∧
    parse_repository (.str "foo/bar") = .ok "https://github.com/foo/bar" ∧
    parse_repository (.str "gitlab:baz/qux") = .ok "https://gitlab.com/baz/qux" ∧
    (∀ id : String, '\n' ∉ id.data →
      parse_repository (.str ("github:" ++ id)) = urljoin "https://github.com" id ∧
      parse_repository (.str ("gitlab:" ++ id)) = urljoin "https://gitlab.com" id ∧
      parse_repository (.str ("gist:" ++ id)) = urljoin "https://gist.github.com" id ∧
      parse_repository (.str ("bitbucket:" ++ id)) = urljoin "https://bitbucket.org" id) :=
  ⟨rfl, rfl, rfl, parse_repository_tagged⟩

theorem c4_witness :
    parse_repository (.str ("github:" ++ "x")) = urljoin "https://github.com" "x" :=
  (c4_repository_tags.2.2.2 "x" (by decide)).1

/-! ### Claim C5 -/

/-- Claim C5 as frozen quantifies over every string without a known tag, but a
string with an interior newline makes the pattern fail and `_parse_repository`
raise `ValueError`, while relative-URL resolution of the same string against
the github base is defined (and strips the newline). -/
theorem c5_counterexample :
    parse_repository (.str "x\ny") =
        .error (.valueError "Invalid repository string: x\ny") ∧
      urljoin "https://github.com" "x\ny" = .ok "https://github.com/xy" :=
  ⟨rfl, rfl⟩

/-- Claim C5 (amended: restricted to newline-free strings): a newline-free
string not starting with any of the four literal tags followed by `:` is
treated whole as the identifier with default provider github, and the result
is the relative-URL resolution of it against the github base; an identifier
that is an absolute URL overrides the base. -/
theorem c5_untagged_repository :
    (∀ s : String, '\n' ∉ s.data →
      ¬ ("gist:".data <+: s.data) → ¬ ("bitbucket:".data <+: s.data) →
      ¬ ("gitlab:".data <+: s.data) → ¬ ("github:".data <+: s.data) →
      parse_repository (.str s) = urljoin "https://github.com" s) ∧
    parse_repository (.str "https://example.com/x") = .ok "https://example.com/x" := by
  constructor
  · intro s hn hg hb hl hh
    simp only [parse_repository]
    rw [repoMatch_untagged s.data hn hg hb hl hh]
    simp [dictGet, REPOSITORY_TABLE, string_mk_data]
  · rfl

theorem c5_witness :
    parse_repository (.str "foo/bar") = urljoin "https://github.com" "foo/bar" :=
  c5_untagged_repository.1 "foo/bar" (by decide) (by decide) (by decide)
    (by decide) (by decide)

/-! ### Claim C6 -/

/-- Claim C6 as frozen says the repository pattern matches every string, but
`.` does not match a newline and `$` only matches at the end (or before a
trailing newline), so a string with an interior newline fails the pattern and
the match-failure `ValueError` branch is taken. -/
theorem c6_counterexample :
    repoMatch "a\nb".data = none ∧
      parse_repository (.str "a\nb") =
        .error (.valueError "Invalid repository string: a\nb") :=
  ⟨rfl, rfl⟩

/-- Claim C6 (amended: match success holds exactly on the strings with no
newline before their last character): for every such string the repository
pattern matches, so the match-failure error branch is not taken on them. -/
theorem c6_repository_match_total (s : String) (h : '\n' ∉ s.data.dropLast) :
    ∃ kid, repoMatch s.data = some kid := by
  unfold repoMatch
  cases ht : stripTag s.data with
  | none =>
    have hs := lazyRest_isSome s.data [] h
    cases hz : lazyRest [] s.data with
    | none => rw [hz] at hs; simp at hs
    | some id => exact ⟨(none, id), by simp [hz]⟩
  | some kr =>
    obtain ⟨k, rest⟩ := kr
    obtain ⟨p, hsplit, hp⟩ := stripTag_split s.data (k, rest) ht
    have h2 : '\n' ∉ rest.dropLast := by
      intro hm
      apply h
      rw [hsplit]
      cases hr : rest with
      | nil => rw [hr] at hm; simp at hm
      | cons d ds =>
        rw [hr] at hm
        rw [List.dropLast_append_cons]
        exact List.mem_append_right p hm
    have hs := lazyRest_isSome rest [] h2
    cases hz : lazyRest [] rest with
    | none => rw [hz] at hs; simp at hs
    | some id => exact ⟨(some k, id), by simp [hz]⟩

theorem c6_witness : ∃ kid, repoMatch "github:ok".data = some kid :=
  c6_repository_match_total "github:ok" (by decide)


/-! ### Author pattern lemmas

The two universal facts behind claim C2: a nonempty string with no `<` or `(`
whose last character is not a space, tab or newline is captured whole by
group 1 with no email; and a string of the full form
`name <email> (url)` is parsed into the name, the email and the parenthetical.
The proofs follow the backtracking order of the matcher. -/

theorem getLast?_mem_list {l : List Char} {a : Char} (h : l.getLast? = some a) :
    a ∈ l := by
  obtain ⟨hne, hx⟩ := List.mem_getLast?_eq_getLast h
  rw [hx]
  exact List.getLast_mem hne

theorem wsClass_not_special {c : Char} (h : wsClass c = true) :
    c ≠ '(' ∧ c ≠ '<' ∧ c ≠ '\n' := by
  rcases (by simpa [wsClass] using h : c = ' ' ∨ c = '\t') with h | h <;> subst h <;>
    exact ⟨by decide, by decide, by decide⟩

/-- `tailEnd` on a suffix that does not begin with `(`: only `$` is tried. -/
theorem tailEnd_not_lparen (c : Char) (rest : List Char) (h : c ≠ '(') :
    tailEnd (c :: rest) = tryDollar (c :: rest) := by
  unfold tailEnd
  split
  · rename_i heq
    injection heq with h1 _
    exact absurd h1 h
  · rfl

/-- `emailPart` on a suffix that does not begin with `<`: the optional email
group is skipped. -/
theorem emailPart_not_langle (c : Char) (rest : List Char) (h : c ≠ '<') :
    emailPart (c :: rest) = (wsThenEnd (c :: rest)).map (fun g3 => (none, g3)) := by
  unfold emailPart
  split
  · rename_i heq
    injection heq with h1 _
    exact absurd h1 h
  · rfl

/-- `[ \t]*(?:\(([^)]+?)\)|$)` succeeds (with no group 3) on pure trailing
whitespace, optionally followed by a final newline. -/
theorem wsThenEnd_ws_end (t : List Char)
    (h : t.dropWhile wsClass = [] ∨ t.dropWhile wsClass = ['\n']) :
    wsThenEnd t = some none := by
  induction t with
  | nil => rfl
  | cons c rest ih =>
    by_cases hc : wsClass c
    · have h' : rest.dropWhile wsClass = [] ∨ rest.dropWhile wsClass = ['\n'] := by
        rwa [List.dropWhile_cons_of_pos hc] at h
      show wsStar tailEnd (c :: rest) = some none
      rw [wsStar, if_pos hc]
      have hr : wsStar tailEnd rest = some none := ih h'
      rw [hr]
    · rw [List.dropWhile_cons_of_neg hc] at h
      rcases h with h | h
      · exact absurd h (by simp)
      · rw [show (c :: rest : List Char) = ['\n'] from h]
        rfl

/-- `[ \t]*(?:\(([^)]+?)\)|$)` fails when the first non-whitespace character
is not `(` and the suffix from there is not a lone final newline. -/
theorem wsThenEnd_fails (t : List Char) :
    ∀ h hs, t.dropWhile wsClass = h :: hs → h ≠ '(' → h :: hs ≠ ['\n'] →
    wsThenEnd t = none := by
  induction t with
  | nil => intro h hs hd _ _; simp at hd
  | cons c rest ih =>
    intro h hs hd hpar hnl
    by_cases hc : wsClass c
    · rw [List.dropWhile_cons_of_pos hc] at hd
      obtain ⟨hc1, _, hc3⟩ := wsClass_not_special hc
      have hrest : wsThenEnd rest = none := ih h hs hd hpar hnl
      show wsStar tailEnd (c :: rest) = none
      rw [wsStar, if_pos hc]
      rw [show wsStar tailEnd rest = none from hrest]
      rw [tailEnd_not_lparen c rest hc1]
      simp [tryDollar, hc3]
    · rw [List.dropWhile_cons_of_neg hc] at hd
      injection hd with h1 h2
      subst h1
      subst h2
      show wsStar tailEnd (c :: rest) = none
      rw [wsStar, if_neg hc]
      rw [tailEnd_not_lparen _ _ hpar]
      simp [tryDollar, hnl]

/-- After group 1, an all-whitespace remainder (with optional final newline)
makes the rest of the pattern succeed with no email and no url group. -/
theorem wsepSuccess (t : List Char)
    (h : t.dropWhile wsClass = [] ∨ t.dropWhile wsClass = ['\n']) :
    wsStar emailPart t = some (none, none) := by
  induction t with
  | nil => rfl
  | cons c rest ih =>
    by_cases hc : wsClass c
    · have h' : rest.dropWhile wsClass = [] ∨ rest.dropWhile wsClass = ['\n'] := by
        rwa [List.dropWhile_cons_of_pos hc] at h
      rw [wsStar, if_pos hc, ih h']
    · rw [List.dropWhile_cons_of_neg hc] at h
      rcases h with h | h
      · exact absurd h (by simp)
      · rw [show (c :: rest : List Char) = ['\n'] from h]
        rfl

/-- After group 1, the rest of the pattern fails when the first
non-whitespace character of the remainder is not `<` or `(` and the suffix
from there is not a lone final newline: neither the email group, nor the
parenthesis, nor `$` can then match, at any whitespace split. -/
theorem wsepFails (t : List Char) :
    ∀ h hs, t.dropWhile wsClass = h :: hs → h ≠ '<' → h ≠ '(' →
    h :: hs ≠ ['\n'] → wsStar emailPart t = none := by
  induction t with
  | nil => intro h hs hd _ _ _; simp at hd
  | cons c rest ih =>
    intro h hs hd hlt hpar hnl
    by_cases hc : wsClass c
    · rw [List.dropWhile_cons_of_pos hc] at hd
      obtain ⟨hc1, hc2, _⟩ := wsClass_not_special hc
      have hdw : (c :: rest).dropWhile wsClass = h :: hs := by
        rw [List.dropWhile_cons_of_pos hc]
        exact hd
      have hw : wsThenEnd (c :: rest) = none := wsThenEnd_fails _ h hs hdw hpar hnl
      rw [wsStar, if_pos hc, ih h hs hd hlt hpar hnl,
        emailPart_not_langle c rest hc2, hw]
      rfl
    · rw [List.dropWhile_cons_of_neg hc] at hd
      injection hd with h1 h2
      subst h1
      subst h2
      have hdw : (c :: rest).dropWhile wsClass = c :: rest :=
        List.dropWhile_cons_of_neg hc
      have hw : wsThenEnd (c :: rest) = none := wsThenEnd_fails _ c rest hdw hpar hnl
      rw [wsStar, if_neg hc, emailPart_not_langle c rest hlt, hw]
      rfl

/-- Group-1 search on a remainder of plain characters (no `<` or `(`) whose
last character is not whitespace or a newline: the lazy group must extend to
the whole remainder, and the rest of the pattern matches at the very end. -/
theorem g1Search_plain (rem : List Char) :
    ∀ acc, rem ≠ [] → (∀ c ∈ rem, c ≠ '<' ∧ c ≠ '(') →
    (rem.getLast? ≠ some ' ' ∧ rem.getLast? ≠ some '\t' ∧ rem.getLast? ≠ some '\n') →
    g1Search acc rem = some (some (acc ++ rem), none, none) := by
  induction rem with
  | nil => intro acc h _ _; exact absurd rfl h
  | cons c rest ih =>
    intro acc _ hchars hlast
    have hcc : c ≠ '<' ∧ c ≠ '(' := hchars c (List.mem_cons_self c rest)
    have hname : nameClass c = true := by
      simp [nameClass, hcc.1, hcc.2]
    cases hrest : rest with
    | nil =>
      rw [g1Search, if_pos hname]
      rfl
    | cons d ds =>
      rw [← hrest]
      have hrne : rest ≠ [] := by rw [hrest]; exact List.cons_ne_nil d ds
      have hlast' : rest.getLast? ≠ some ' ' ∧ rest.getLast? ≠ some '\t' ∧
          rest.getLast? ≠ some '\n' := by
        have : (c :: rest).getLast? = rest.getLast? := by
          rw [hrest]
          exact List.getLast?_cons_cons
        rw [← this]
        exact hlast
      have hchars' : ∀ x ∈ rest, x ≠ '<' ∧ x ≠ '(' :=
        fun x hx => hchars x (List.mem_cons_of_mem c hx)
      have hfail : wsStar emailPart rest = none := by
        obtain ⟨h, hs, hdw⟩ : ∃ h hs, rest.dropWhile wsClass = h :: hs := by
          cases hdw : rest.dropWhile wsClass with
          | nil =>
            exfalso
            have hall : ∀ x ∈ rest, wsClass x := List.dropWhile_eq_nil_iff.mp hdw
            obtain ⟨x, hx⟩ : ∃ x, rest.getLast? = some x := by
              cases hg : rest.getLast? with
              | none => exact absurd (List.getLast?_eq_none_iff.mp hg) hrne
              | some x => exact ⟨x, rfl⟩
            have := hall x (getLast?_mem_list hx)
            rcases (by simpa [wsClass] using this : x = ' ' ∨ x = '\t') with h | h <;>
              rw [h] at hx
            · exact hlast'.1 hx
            · exact hlast'.2.1 hx
          | cons h hs => exact ⟨h, hs, rfl⟩
        have hmem : h ∈ rest := by
          have : h ∈ rest.dropWhile wsClass := by rw [hdw]; exact List.mem_cons_self h hs
          exact (List.dropWhile_sublist wsClass).subset this
        have hh := hchars' h hmem
        refine wsepFails rest h hs hdw hh.1 hh.2 ?_
        intro hsing
        have hlastdw : rest.getLast? = some '\n' := by
          have hsuffix := List.takeWhile_append_dropWhile wsClass rest
          have : rest.getLast? = (rest.dropWhile wsClass).getLast? := by
            conv_lhs => rw [← hsuffix]
            exact List.getLast?_append_of_ne_nil _ (by rw [hdw]; simp)
          rw [this, hdw, hsing]
          rfl
        exact hlast'.2.2 hlastdw
      rw [g1Search, if_pos hname, hfail, ih (acc ++ [c]) hrne hchars' hlast']
      rw [List.append_assoc]
      rfl

/-- `AUTHOR_PATTERN` on a nonempty string of plain characters (no `<`, `(`)
not ending in space, tab or newline: the whole string is group 1, no email,
no url. -/
theorem authorMatch_plain (s : List Char) (h0 : s ≠ [])
    (hc : ∀ c ∈ s, c ≠ '<' ∧ c ≠ '(')
    (hl : s.getLast? ≠ some ' ' ∧ s.getLast? ≠ some '\t' ∧ s.getLast? ≠ some '\n') :
    authorMatch s = some (some s, none, none) := by
  unfold authorMatch
  rw [g1Search_plain s [] h0 hc hl]
  rfl

/-- `splitFirst` finds the separator when one exists. -/
theorem splitFirst_isSome (p : Char → Bool) (l : List Char) (x : Char)
    (hx : x ∈ l) (hp : p x = true) : (splitFirst p l).isSome = true := by
  induction l with
  | nil => simp at hx
  | cons c rest ih =>
    by_cases hpc : p c
    · rw [splitFirst, if_pos hpc]
      rfl
    · rcases List.mem_cons.mp hx with h | h
      · rw [← h] at hpc
        exact absurd hp hpc
      · rw [splitFirst, if_neg hpc]
        cases hs : splitFirst p rest with
        | none => rw [hs] at ih; exact absurd (ih h) (by simp)
        | some ab => rfl

/-- The parenthesis alternative succeeds on `(u)` whenever `u` does not start
with `)` (the lazy group captures up to the first closing parenthesis). -/
theorem tailEnd_paren (d : Char) (us : List Char) (hd : d ≠ ')') :
    ∃ g3, tailEnd ('(' :: (d :: us) ++ [')']) = some (some g3) := by
  have hsome : (splitFirst (fun c => c = ')') (us ++ [')'])).isSome = true :=
    splitFirst_isSome _ _ ')' (List.mem_append_right us (List.mem_singleton.mpr rfl))
      (by simp)
  cases hsp : splitFirst (fun c => c = ')') (us ++ [')']) with
  | none => rw [hsp] at hsome; exact absurd hsome (by simp)
  | some ab =>
    refine ⟨d :: ab.1, ?_⟩
    show tailEnd ('(' :: d :: (us ++ [')'])) = some (some (d :: ab.1))
    have hsf : splitFirst (fun c => c = ')') (d :: (us ++ [')'])) =
        some (d :: ab.1, ab.2) := by
      rw [splitFirst, if_neg (by simpa using hd), hsp]
      rfl
    simp [tailEnd, hsf]

/-- The email body `[^>(]+?` walks over `e` to the first `>` and then runs the
continuation. -/
theorem emailScan_run (e : List Char) :
    ∀ acc tail g3, (∀ c ∈ e, c ≠ '>' ∧ c ≠ '(') → acc ++ e ≠ [] →
    wsThenEnd tail = some g3 →
    emailScan acc (e ++ '>' :: tail) = some (acc ++ e, g3) := by
  induction e with
  | nil =>
    intro acc tail g3 _ hne hw
    rw [List.append_nil] at hne ⊢
    show emailScan acc ('>' :: tail) = some (acc, g3)
    rw [emailScan]
    rw [if_pos rfl, if_neg hne, hw]
  | cons d e' ih =>
    intro acc tail g3 hch hne hw
    have hd := hch d (List.mem_cons_self d e')
    show emailScan acc (d :: (e' ++ '>' :: tail)) = some (acc ++ d :: e', g3)
    rw [emailScan, if_neg (by simpa using hd.1), if_neg (by simpa using hd.2)]
    have := ih (acc ++ [d]) tail g3 (fun c hc => hch c (List.mem_cons_of_mem d hc))
      (by simp) hw
    rw [this, List.append_assoc]
    rfl

/-- A list whose last character is not whitespace keeps a head after
`dropWhile wsClass`. -/
theorem dropWhile_ws_ne_nil (t : List Char) (ht : t ≠ [])
    (hlast : t.getLast? ≠ some ' ' ∧ t.getLast? ≠ some '\t') :
    ∃ h hs, t.dropWhile wsClass = h :: hs := by
  cases hdw : t.dropWhile wsClass with
  | nil =>
    exfalso
    have hall : ∀ x ∈ t, wsClass x := List.dropWhile_eq_nil_iff.mp hdw
    obtain ⟨x, hx⟩ : ∃ x, t.getLast? = some x := by
      cases hg : t.getLast? with
      | none => exact absurd (List.getLast?_eq_none_iff.mp hg) ht
      | some x => exact ⟨x, rfl⟩
    have := hall x (getLast?_mem_list hx)
    rcases (by simpa [wsClass] using this : x = ' ' ∨ x = '\t') with h | h <;>
      rw [h] at hx
    · exact hlast.1 hx
    · exact hlast.2 hx
  | cons h hs => exact ⟨h, hs, rfl⟩

/-- A candidate for group 1 that stops before further plain characters makes
the rest of the pattern fail: the leftover characters (no `<`, `(`, not ending
in whitespace before the separator) block every alternative. -/
theorem wsepFails_mid (t r : List Char) (ht : t ≠ [])
    (hchars : ∀ c ∈ t, c ≠ '<' ∧ c ≠ '(')
    (hlast : t.getLast? ≠ some ' ' ∧ t.getLast? ≠ some '\t')
    (hr : r ≠ []) :
    wsStar emailPart (t ++ r) = none := by
  obtain ⟨h, hs, hdw⟩ := dropWhile_ws_ne_nil t ht hlast
  have hmem : h ∈ t := by
    have : h ∈ t.dropWhile wsClass := by rw [hdw]; exact List.mem_cons_self h hs
    exact (List.dropWhile_sublist wsClass).subset this
  have hh := hchars h hmem
  have hdw2 : (t ++ r).dropWhile wsClass = h :: (hs ++ r) := by
    rw [List.dropWhile_append, hdw]
    rfl
  refine wsepFails (t ++ r) h (hs ++ r) hdw2 hh.1 hh.2 ?_
  intro hsing
  injection hsing with _ h2
  exact hr (List.append_eq_nil.mp h2).2

/-- Unfolding of `wsStar` on a cons (stated with a plain `match` so later
rewriting steps stay syntactic). -/
theorem wsStar_cons {α : Type} (κ : List Char → Option α) (c : Char) (rest : List Char) :
    wsStar κ (c :: rest) =
      if wsClass c then
        (match wsStar κ rest with | some r => some r | none => κ (c :: rest))
      else κ (c :: rest) := by
  with_unfolding_all rfl

/-- Unfolding of `emailPart` on a suffix that starts with `<`. -/
theorem emailPart_langle (rest : List Char) :
    emailPart ('<' :: rest) =
      (match emailScan [] rest with
       | some (e, g3) => some (some e, g3)
       | none => (wsThenEnd ('<' :: rest)).map (fun g3 => (none, g3))) := by
  with_unfolding_all rfl

/-- `[ \t]*(?:\(([^)]+?)\)|$)` succeeds on `" (u)"` when `u` does not start
with `)`. -/
theorem wsThenEnd_paren (d : Char) (us : List Char) (hd : d ≠ ')') :
    ∃ g3, wsThenEnd (' ' :: '(' :: d :: (us ++ [')'])) = some (some g3) := by
  obtain ⟨g3, hg0⟩ := tailEnd_paren d us hd
  have hg : tailEnd ('(' :: d :: (us ++ [')'])) = some (some g3) := hg0
  refine ⟨g3, ?_⟩
  show wsStar tailEnd (' ' :: '(' :: d :: (us ++ [')'])) = some (some g3)
  rw [wsStar_cons, if_pos (show wsClass ' ' = true from rfl)]
  rw [wsStar_cons, if_neg (show ¬ wsClass '(' = true by decide)]
  rw [hg]

/-- The rest of the pattern after group 1 succeeds on the exact separator
`" <e> (u)"`, capturing the email and the parenthetical. -/
theorem wsepSuccess_full (e : List Char) (he : e ≠ [])
    (hce : ∀ c ∈ e, c ≠ '>' ∧ c ≠ '(') (d : Char) (us : List Char) (hd : d ≠ ')') :
    ∃ g3, wsStar emailPart
        (' ' :: '<' :: (e ++ '>' :: ' ' :: '(' :: d :: (us ++ [')'])))
      = some (some e, some g3) := by
  obtain ⟨g3, hw⟩ := wsThenEnd_paren d us hd
  refine ⟨g3, ?_⟩
  have hscan : emailScan [] (e ++ '>' :: ' ' :: '(' :: d :: (us ++ [')'])) =
      some (e, some g3) := by
    have := emailScan_run e [] (' ' :: '(' :: d :: (us ++ [')'])) (some g3) hce
      (by simpa using he) hw
    simpa using this
  have hep : emailPart ('<' :: (e ++ '>' :: ' ' :: '(' :: d :: (us ++ [')']))) =
      some (some e, some g3) := by
    rw [emailPart_langle, hscan]
  rw [wsStar_cons, if_pos (show wsClass ' ' = true from rfl)]
  rw [wsStar_cons, if_neg (show ¬ wsClass '<' = true by decide)]
  rw [hep]

/-- Group-1 search on `n <e> (u)`: the lazy group 1 extends exactly over `n`
(shorter candidates strand plain characters before the separator and fail),
and the rest of the pattern captures `e` and the parenthetical. -/
theorem g1Search_full (e : List Char) (he : e ≠ [])
    (hce : ∀ c ∈ e, c ≠ '>' ∧ c ≠ '(') (d : Char) (us : List Char) (hd : d ≠ ')') :
    ∀ n acc, n ≠ [] → (∀ c ∈ n, c ≠ '<' ∧ c ≠ '(') →
    n.getLast? ≠ some ' ' → n.getLast? ≠ some '\t' →
    ∃ g3, g1Search acc
        (n ++ ' ' :: '<' :: (e ++ '>' :: ' ' :: '(' :: d :: (us ++ [')'])))
      = some (some (acc ++ n), some e, some g3) := by
  intro n
  induction n with
  | nil => intro acc h _ _ _; exact absurd rfl h
  | cons c n' ih =>
    intro acc _ hchars hl1 hl2
    have hcc := hchars c (List.mem_cons_self c n')
    have hname : nameClass c = true := by simp [nameClass, hcc.1, hcc.2]
    cases hn' : n' with
    | nil =>
      obtain ⟨g3, hsucc⟩ := wsepSuccess_full e he hce d us hd
      refine ⟨g3, ?_⟩
      subst hn'
      simp only [List.cons_append, List.nil_append]
      rw [g1Search, if_pos hname, hsucc]
    | cons c2 n'' =>
      rw [← hn']
      have hn'ne : n' ≠ [] := by rw [hn']; exact List.cons_ne_nil c2 n''
      have hlast' : n'.getLast? ≠ some ' ' ∧ n'.getLast? ≠ some '\t' := by
        have hgl : (c :: n').getLast? = n'.getLast? := by
          rw [hn']
          exact List.getLast?_cons_cons
        constructor
        · rw [← hgl]; exact hl1
        · rw [← hgl]; exact hl2
      have hchars' : ∀ x ∈ n', x ≠ '<' ∧ x ≠ '(' :=
        fun x hx => hchars x (List.mem_cons_of_mem c hx)
      have hfail : wsStar emailPart
          (n' ++ ' ' :: '<' :: (e ++ '>' :: ' ' :: '(' :: d :: (us ++ [')']))) = none :=
        wsepFails_mid n' _ hn'ne hchars' hlast' (List.cons_ne_nil _ _)
      obtain ⟨g3, hrec⟩ := ih (acc ++ [c]) hn'ne hchars' hlast'.1 hlast'.2
      refine ⟨g3, ?_⟩
      simp only [List.cons_append]
      rw [g1Search, if_pos hname, hfail, hrec]
      rw [List.append_assoc]
      rfl

/-- `AUTHOR_PATTERN` on the full form `n <e> (u)`: group 1 is exactly `n`,
group 2 exactly `e`, group 3 some prefix of the parenthetical. -/
theorem authorMatch_full (n e : List Char) (d : Char) (us : List Char)
    (hn : n ≠ []) (hcn : ∀ c ∈ n, c ≠ '<' ∧ c ≠ '(')
    (hl1 : n.getLast? ≠ some ' ') (hl2 : n.getLast? ≠ some '\t')
    (he : e ≠ []) (hce : ∀ c ∈ e, c ≠ '>' ∧ c ≠ '(') (hd : d ≠ ')') :
    ∃ g3, authorMatch
        (n ++ ' ' :: '<' :: (e ++ '>' :: ' ' :: '(' :: d :: (us ++ [')'])))
      = some (some n, some e, some g3) := by
  obtain ⟨g3, hg⟩ := g1Search_full e he hce d us hd n [] hn hcn hl1 hl2
  refine ⟨g3, ?_⟩
  unfold authorMatch
  rw [hg]
  simp

/-! ### Claim C2 -/

/-- Claim C2 as frozen is falsified by trailing whitespace: `"Jane "` has no
angle-bracket or parenthetical segment, yet the lazy group 1 stops before the
trailing space (absorbed by `[ \t]*`), so the parsed name is `"Jane"`, not
the whole string. -/
theorem c2_counterexample :
    parse_person [("name", "Jane ")] = .ok [("name", some "Jane")] ∧
      ("Jane" : String) ≠ "Jane " := ⟨rfl, by decide⟩

/-- Claim C2 (amended: the display name must be nonempty and must not end in
space or tab — trailing whitespace is absorbed by the separator — the email
nonempty without `>` or `(`, the parenthetical not starting with `)`; and a
plain string is returned whole only when nonempty and not ending in space,
tab or newline): the full form `"N <E> (U)"` parses to name `N` and email `E`
with the parenthetical dropped, and a plain string parses to itself with no
email key. -/
theorem c2_author_string_forms :
    (∀ n e u : String, n.data ≠ [] → (∀ c ∈ n.data, c ≠ '<' ∧ c ≠ '(') →
      n.data.getLast? ≠ some ' ' → n.data.getLast? ≠ some '\t' →
      e.data ≠ [] → (∀ c ∈ e.data, c ≠ '>' ∧ c ≠ '(') →
      u.data.headD ')' ≠ ')' →
      parse_person [("name", n ++ " <" ++ e ++ "> (" ++ u ++ ")")] =
        .ok [("name", some n), ("email", some e)]) ∧
    (∀ s : String, s.data ≠ [] → (∀ c ∈ s.data, c ≠ '<' ∧ c ≠ '(') →
      s.data.getLast? ≠ some ' ' → s.data.getLast? ≠ some '\t' →
      s.data.getLast? ≠ some '\n' →
      parse_person [("name", s)] = .ok [("name", some s)]) := by
  constructor
  · intro n e u h0 hc h1 h2 he0 hce hu
    obtain ⟨d, us, hud, hd⟩ : ∃ d us, u.data = d :: us ∧ d ≠ ')' := by
      cases hud : u.data with
      | nil => rw [hud] at hu; exact absurd rfl hu
      | cons d us => exact ⟨d, us, rfl, by simpa [hud] using hu⟩
    obtain ⟨g3, hm⟩ := authorMatch_full n.data e.data d us h0 hc h1 h2 he0 hce hd
    simp [parse_person, dictGet, hud, hm, string_mk_data]
  · intro s h0 hc h1 h2 h3
    have hm := authorMatch_plain s.data h0 hc ⟨h1, h2, h3⟩
    simp [parse_person, dictGet, hm, string_mk_data]

theorem c2_witness :
    parse_person
        [("name", "Jane Doe" ++ " <" ++ "jane@example.com" ++ "> (" ++
          "https://jane.dev" ++ ")")] =
      .ok [("name", some "Jane Doe"), ("email", some "jane@example.com")] ∧
    parse_person [("name", "Jane Doe")] = .ok [("name", some "Jane Doe")] :=
  ⟨c2_author_string_forms.1 "Jane Doe" "jane@example.com" "https://jane.dev"
     (by decide) (by decide) (by decide) (by decide) (by decide) (by decide)
     (by decide),
   c2_author_string_forms.2 "Jane Doe" (by decide) (by decide) (by decide)
     (by decide) (by decide)⟩
